import Mathlib

/-!
Shallow embedding of the skeletal-animation core of the game library
(src/game/lib.rs).  Machine floats (f32, f64) are modelled by exact
rationals, 4x4 matrices by `Matrix (Fin 4) (Fin 4) ℚ`, and every panic
site (Option unwrap, out-of-range Vec indexing, Vec insert past the end)
by an `Option` result where `none` marks the abort.
-/

namespace Parti

/-- 4x4 matrix of f32 entries, modelled over the rationals. -/
abbrev Mat : Type := Matrix (Fin 4) (Fin 4) ℚ

/-- cgmath Vector3 and Point3 of f32, modelled componentwise over ℚ. -/
abbrev Vec3 : Type := Fin 3 → ℚ

/-- Animation sample payload: the struct has one pose matrix field. -/
structure Animation where
  pose : Mat
deriving DecidableEq

instance : Inhabited Animation := ⟨⟨0⟩⟩

/-- One bone of a skeleton, as built in query_skeleton (lib.rs line 1344):
fields joint_index, parent (255 is the root sentinel), global, bind,
inverse.  The indices are i32 in Rust, cast with `as usize` before use;
they are non-negative in every reachable state, so Nat models them. -/
structure Joint where
  joint_index : Nat
  parent : Nat
  global : Mat
  bind : Mat
  inverse : Mat
deriving DecidableEq

/-- The per-joint GPU constant, struct Skinning (lib.rs line 760). -/
structure Skinning where
  transform : Mat
deriving DecidableEq

/-- GameObject (lib.rs line 972): entries are GPU handles, abstracted to a
type parameter; the skinning buffer handle carries no state we model. -/
structure GameObject (E : Type) where
  entries : List E
  position : Vec3
  joints : List Joint
  animations : List (List (ℚ × Animation))

/-- Rust floating remainder `a % b` (sign of the dividend): subtract b
times the quotient truncated toward zero. -/
def rustRem (a b : ℚ) : ℚ :=
  a - b * (if 0 ≤ a / b then ((⌊a / b⌋ : ℤ) : ℚ) else ((⌈a / b⌉ : ℤ) : ℚ))

/-- Rust Vec::insert(i, x): shifts the tail right; panics when i > len. -/
def vecInsert (l : List Mat) (i : Nat) (x : Mat) : Option (List Mat) :=
  if i ≤ l.length then some (l.take i ++ x :: l.drop i) else none

/-- Resolution of the parent world matrix (lib.rs lines 1061-1065 and
1123-1127): identity for the 255 sentinel, otherwise the scratch entry of
the parent; `none` is the unwrap panic on a missing entry. -/
def parentWorld (loc : List Mat) (j : Joint) : Option Mat :=
  if j.parent = 255 then some 1 else loc.get? j.parent

/-- One iteration of the map in GameObject::get_skinning (lib.rs lines
1059-1112): given the scratch array so far and the joint, produce the
updated scratch array and the exported Skinning transform. -/
def evalJointTime (animations : List (List (ℚ × Animation))) (time : ℚ)
    (loc : List Mat) (j : Joint) : Option (List Mat × Mat) :=
  match parentWorld loc j with
  | none => none
  | some p =>
    match animations.get? j.joint_index with
    | some v =>
      let length := v.length
      if 0 < length then
        let duration : ℚ := 4
        let sample_per_second : ℚ := (length : ℚ) / duration
        let t : ℚ := rustRem time duration * sample_per_second
        let index_1 : Nat := (⌊t⌋).toNat
        let ceiled : Nat := (⌈t⌉).toNat
        let index_2 : Nat := if ceiled = length then 0 else ceiled
        let blend_factor : ℚ := t - (index_1 : ℚ)
        match v.get? index_1, v.get? index_2 with
        | some sample_1, some sample_2 =>
          let pose_1 : Mat := sample_1.2.pose
          let pose_2 : Mat := sample_2.2.pose
          let pose : Mat := pose_1 + blend_factor • (pose_2 - pose_1)
          match vecInsert loc j.joint_index (p * pose) with
          | some loc2 => some (loc2, p * (pose * j.inverse))
          | none => none
        | _, _ => none
      else
        match vecInsert loc j.joint_index j.bind with
        | some loc2 => some (loc2, p * j.bind)
        | none => none
    | none =>
      let output := j.bind
      match vecInsert loc j.joint_index output with
      | some loc2 => some (loc2, output)
      | none => none

/-- One iteration of the map in GameObject::get_skinning_at (lib.rs lines
1121-1161): a single sample selected by index mod length, no blending. -/
def evalJointAt (animations : List (List (ℚ × Animation))) (index : Nat)
    (loc : List Mat) (j : Joint) : Option (List Mat × Mat) :=
  match parentWorld loc j with
  | none => none
  | some p =>
    match animations.get? j.joint_index with
    | some v =>
      let length := v.length
      if 0 < length then
        let inx := index % length
        match v.get? inx with
        | some sample_1 =>
          let pose_1 : Mat := sample_1.2.pose
          let pose : Mat := pose_1
          match vecInsert loc j.joint_index (p * pose) with
          | some loc2 => some (loc2, p * (pose * j.inverse))
          | none => none
        | none => none
      else
        match vecInsert loc j.joint_index j.bind with
        | some loc2 => some (loc2, p * j.bind)
        | none => none
    | none =>
      let output := j.bind
      match vecInsert loc j.joint_index output with
      | some loc2 => some (loc2, output)
      | none => none

/-- The iter().map().collect() traversal: thread the scratch array left to
right over the joints, collecting the outputs; none on any panic. -/
def goSkin (step : List Mat → Joint → Option (List Mat × Mat)) :
    List Joint → List Mat → Option (List Mat)
  | [], _ => some []
  | j :: rest, loc =>
    match step loc j with
    | none => none
    | some (loc2, out) =>
      match goSkin step rest loc2 with
      | none => none
      | some outs => some (out :: outs)

/-- GameObject::get_skinning (lib.rs lines 1056-1117). -/
def GameObject.get_skinning {E : Type} (o : GameObject E) (time : ℚ) :
    Option (List Skinning) :=
  if 0 < o.joints.length then
    match goSkin (evalJointTime o.animations time) o.joints [] with
    | none => none
    | some outs => some (outs.map fun m => ⟨m⟩)
  else
    some [⟨(1 : Mat)⟩]

/-- GameObject::get_skinning_at (lib.rs lines 1118-1167). -/
def GameObject.get_skinning_at {E : Type} (o : GameObject E) (index : Nat) :
    Option (List Skinning) :=
  if 0 < o.joints.length then
    match goSkin (evalJointAt o.animations index) o.joints [] with
    | none => none
    | some outs => some (outs.map fun m => ⟨m⟩)
  else
    some [⟨(1 : Mat)⟩]

/-- Avatar commands (lib.rs line 185). -/
inductive AvatorCommand where
  | Move (v : Vec3)

/-- Camera commands (lib.rs line 188). -/
inductive CameraCommand where
  | Move (v : Vec3)
  | LookAt (p : Vec3)

/-- Generic queued-command executor bound to one target (lib.rs line 201). -/
structure Invoker (Cmd T : Type) where
  commands : List Cmd
  target : T
  current_index : Nat

/-- Invoker::new (lib.rs lines 625-631). -/
def Invoker.new {Cmd T : Type} (t : T) : Invoker Cmd T :=
  { commands := [], target := t, current_index := 0 }

/-- Invoker::append_command (lib.rs lines 654-656): Vec::push. -/
def Invoker.append_command {Cmd T : Type} (inv : Invoker Cmd T) (c : Cmd) :
    Invoker Cmd T :=
  { inv with commands := inv.commands ++ [c] }

/-- Invoker::execute_command (lib.rs lines 636-646); the trait method
Command::execute is passed explicitly as a pure state transformer.  The
guard makes the index access total, so the unreachable miss keeps the
state unchanged. -/
def Invoker.execute_command {Cmd T : Type} (exec : Cmd → T → T)
    (inv : Invoker Cmd T) : Invoker Cmd T :=
  if inv.commands.length ≤ inv.current_index then inv
  else
    match inv.commands.get? inv.current_index with
    | some c =>
      { inv with target := exec c inv.target,
                 current_index := inv.current_index + 1 }
    | none => inv

/-- Invoker::execute_all_commands (lib.rs lines 647-653): the for loop
runs once per element of the range current_index..len computed up front,
then the queue is cleared and the cursor reset. -/
def Invoker.execute_all_commands {Cmd T : Type} (exec : Cmd → T → T)
    (inv : Invoker Cmd T) : Invoker Cmd T :=
  let inv2 := (Invoker.execute_command exec)^[inv.commands.length - inv.current_index] inv
  { inv2 with commands := [], current_index := 0 }

/-- The avatar entity map HashMap<i32, GameObject> modelled as a function
from keys to optional objects. -/
def EntityMap (E : Type) : Type := Int → Option (GameObject E)

/-- Translate for GameObject (lib.rs lines 986-991): position += v. -/
def GameObject.translate {E : Type} (o : GameObject E) (v : Vec3) :
    GameObject E :=
  { o with position := o.position + v }

/-- Command::execute of AvatorCommand against the entity map (lib.rs lines
694-699): Move looks up key 1 with get_mut and unwraps; a missing entry is
the unwrap panic, modelled as none. -/
def AvatorCommand.execute {E : Type} (cmd : AvatorCommand)
    (c : EntityMap E) : Option (EntityMap E) :=
  match cmd with
  | AvatorCommand.Move v =>
    match c 1 with
    | none => none
    | some o => some (fun k => if k = 1 then some (o.translate v) else c k)

/-- WorldState (lib.rs line 213). -/
inductive WorldState where
  | Render
  | Pose
deriving DecidableEq

/-- The window events distinguished by World::handle_input (lib.rs lines
552-617): each pressed-key arm, the axis-motion arm and the wildcard. -/
inductive InputEvent where
  | KeyL
  | KeyH
  | KeyJ
  | KeyK
  | KeyW
  | KeyS
  | KeyA
  | KeyD
  | KeyM
  | AxisMotion (axis : Nat) (value : ℚ)
  | Other
deriving DecidableEq

/-- The World fields the input and command claims depend on (lib.rs line
218): the avatar invoker, the camera invoker and the mode state.  GPU
pipeline state, sampler and font are construction-time resources with no
bearing on these claims. -/
structure World (E : Type) where
  avators : Invoker AvatorCommand (EntityMap E)
  camera : Invoker CameraCommand Unit
  state : WorldState

/-- World::new, restricted to the modelled fields (lib.rs lines 247-250
and 453): fresh invokers and the initial state Render. -/
def World.new {E : Type} (avatarEntities : EntityMap E) : World E :=
  { avators := Invoker.new avatarEntities,
    camera := Invoker.new (),
    state := WorldState.Render }

/-- Helper for the vector literals in handle_input. -/
def v3 (x y z : ℚ) : Vec3 := ![x, y, z]

/-- World::handle_input (lib.rs lines 552-617): L, H, J, K append avatar
moves; W, S, A, D append camera moves; M toggles Render and Pose; axis
motion only prints; everything else is ignored. -/
def World.handle_input {E : Type} (w : World E) (ev : InputEvent) :
    World E :=
  match ev with
  | InputEvent.KeyL =>
    { w with avators := w.avators.append_command (AvatorCommand.Move (v3 (1/2) 0 0)) }
  | InputEvent.KeyH =>
    { w with avators := w.avators.append_command (AvatorCommand.Move (v3 (-(1/2)) 0 0)) }
  | InputEvent.KeyJ =>
    { w with avators := w.avators.append_command (AvatorCommand.Move (v3 0 (-(1/2)) 0)) }
  | InputEvent.KeyK =>
    { w with avators := w.avators.append_command (AvatorCommand.Move (v3 0 (1/2) 0)) }
  | InputEvent.KeyW =>
    { w with camera := w.camera.append_command (CameraCommand.Move (v3 0 (1/10) 0)) }
  | InputEvent.KeyS =>
    { w with camera := w.camera.append_command (CameraCommand.Move (v3 0 (-(1/10)) 0)) }
  | InputEvent.KeyA =>
    { w with camera := w.camera.append_command (CameraCommand.Move (v3 (-(1/10)) 0 0)) }
  | InputEvent.KeyD =>
    { w with camera := w.camera.append_command (CameraCommand.Move (v3 (1/10) 0 0)) }
  | InputEvent.KeyM =>
    { w with state := if w.state = WorldState.Render then WorldState.Pose
                      else WorldState.Render }
  | InputEvent.AxisMotion _ _ => w
  | InputEvent.Other => w

/-- The blended pose prescribed by the spec sentence behind claim C1,
written from the words of the spec for comparison with the code: with L
the track length, t = (elapsed_time mod 4.0) * (L / 4.0), index1 =
floor t, index2 = ceil t wrapped to 0 when it equals L, blend = t -
index1, the pose is pose1 + (pose2 - pose1) * blend componentwise. -/
def specPoseFormula (v : List (ℚ × Animation)) (time : ℚ) : Mat :=
  let L := v.length
  let t : ℚ := rustRem time 4 * ((L : ℚ) / 4)
  let index1 : Nat := (⌊t⌋).toNat
  let ceiled : Nat := (⌈t⌉).toNat
  let index2 : Nat := if ceiled = L then 0 else ceiled
  let blend : ℚ := t - (index1 : ℚ)
  let pose1 : Mat := (v.getD index1 default).2.pose
  let pose2 : Mat := (v.getD index2 default).2.pose
  pose1 + blend • (pose2 - pose1)

/-- Structural precondition on a skeleton: each joint records its own
position in the array, and every parent link is the 255 sentinel or
points strictly below the joint. -/
@[reducible] def WellFormed (joints : List Joint) : Prop :=
  ∀ i : Fin joints.length,
    (joints.get i).joint_index = i.val ∧
    ((joints.get i).parent = 255 ∨ (joints.get i).parent < i.val)

/-- Sample root joint with identity matrices. -/
def jRootW : Joint := ⟨0, 255, 1, 1, 1⟩

/-- Sample child joint of the root, identity matrices. -/
def jChildW : Joint := ⟨1, 0, 1, 1, 1⟩

/-- Sample root joint whose bind matrix is twice the identity. -/
def jBind2W : Joint := ⟨0, 255, 1, (2 : ℚ) • 1, 1⟩

/-- Sample one-sample animation track with the identity pose. -/
def trackW : List (ℚ × Animation) := [(0, ⟨1⟩)]

/-- Sample track list holding only the track of joint 0. -/
def animsW : List (List (ℚ × Animation)) := [trackW]

/-- Sample object with an empty skeleton. -/
def objEmptyW : GameObject Unit := ⟨[], 0, [], []⟩

/-- Sample object with a root and a child and one animated joint. -/
def objTwoW : GameObject Unit := ⟨[], 0, [jRootW, jChildW], animsW⟩

/-- Sample object with a scaled root bind matrix and no tracks at all. -/
def objCexW : GameObject Unit := ⟨[], 0, [jBind2W, jChildW], []⟩

/-- Sample entity map with no entry at any key. -/
def mapNoneW : EntityMap Unit := fun _ => none

/-- Sample entity map holding one object under key 1. -/
def mapOneW : EntityMap Unit := fun k => if k = 1 then some objEmptyW else none

/-- Sample translation vector. -/
def vW : Vec3 := v3 1 2 3

/-- Sample entity map after moving the object under key 1 by vW. -/
def mapOneMovedW : EntityMap Unit :=
  fun k => if k = 1 then some (objEmptyW.translate vW) else mapOneW k

/-- Sample track list holding one present but empty track. -/
def animsEmptyW : List (List (ℚ × Animation)) := [[]]

/-- Sample command interpreter: record each executed command at the end
of a list, so order and multiplicity of execution are observable. -/
def execW : Nat → List Nat → List Nat := fun c t => t ++ [c]

/-- Sample invoker state after appending commands 1 then 2 to a fresh
invoker. -/
def invW : Invoker Nat (List Nat) :=
  ((Invoker.new []).append_command 1).append_command 2

/-- C4: with an empty joint list, both the time-based and the
discrete-frame evaluation return exactly one matrix, the identity. -/
theorem C4_empty_skeleton_identity {E : Type} (o : GameObject E) (time : ℚ)
    (idx : Nat) (h : o.joints = []) :
    o.get_skinning time = some [⟨1⟩] ∧ o.get_skinning_at idx = some [⟨1⟩] := by
  unfold GameObject.get_skinning GameObject.get_skinning_at
  rw [h]
  simp

theorem C4_witness :
    objEmptyW.joints = [] ∧
    (objEmptyW.get_skinning 0 = some [⟨1⟩] ∧
     objEmptyW.get_skinning_at 5 = some [⟨1⟩]) :=
  ⟨rfl, C4_empty_skeleton_identity objEmptyW 0 5 rfl⟩

/-- C7: executing an avatar Move command against an entity map with no
entry under the referenced key 1 is the unwrap panic, a fatal abort. -/
theorem C7_missing_avatar_key_fatal {E : Type} (m : EntityMap E) (v : Vec3)
    (h : m 1 = none) :
    AvatorCommand.execute (AvatorCommand.Move v) m = none := by
  unfold AvatorCommand.execute
  rw [h]

theorem C7_witness :
    mapNoneW 1 = none ∧
    AvatorCommand.execute (AvatorCommand.Move vW) mapNoneW = none :=
  ⟨rfl, C7_missing_avatar_key_fatal mapNoneW vW rfl⟩

/-- C9: an avatar Move command only replaces the position field of the
object under key 1 by position + v, leaving its entries, joints and
animations intact, and leaves every other key of the map untouched. -/
theorem C9_move_frame {E : Type} (m : EntityMap E) (v : Vec3)
    (o : GameObject E) (m2 : EntityMap E)
    (ho : m 1 = some o)
    (he : AvatorCommand.execute (AvatorCommand.Move v) m = some m2) :
    m2 1 = some ⟨o.entries, o.position + v, o.joints, o.animations⟩ ∧
    ∀ k : Int, k ≠ 1 → m2 k = m k := by
  unfold AvatorCommand.execute at he
  rw [ho] at he
  injection he with he2
  constructor
  · rw [← he2]
    simp [GameObject.translate]
  · intro k hk
    rw [← he2]
    simp [hk]

theorem C9_witness :
    (mapOneW 1 = some objEmptyW ∧
     AvatorCommand.execute (AvatorCommand.Move vW) mapOneW = some mapOneMovedW) ∧
    (mapOneMovedW 1 = some ⟨objEmptyW.entries, objEmptyW.position + vW,
        objEmptyW.joints, objEmptyW.animations⟩ ∧
     ∀ k : Int, k ≠ 1 → mapOneMovedW k = mapOneW k) :=
  ⟨⟨rfl, rfl⟩, C9_move_frame mapOneW vW objEmptyW mapOneMovedW rfl rfl⟩

/-- C8: the world starts in Render; the M toggle flips the state, every
other event leaves it unchanged; after n toggles from the start the state
is Render exactly when n is even. -/
theorem C8_mode_toggle {E : Type} (a : EntityMap E) (w : World E)
    (e : InputEvent) (n : Nat) :
    (World.new a).state = WorldState.Render ∧
    (w.handle_input e).state =
      (if e = InputEvent.KeyM then
        (if w.state = WorldState.Render then WorldState.Pose
         else WorldState.Render)
       else w.state) ∧
    ((fun z : World E => z.handle_input InputEvent.KeyM)^[n]
        (World.new a)).state =
      (if n % 2 = 0 then WorldState.Render else WorldState.Pose) := by
  refine ⟨rfl, ?_, ?_⟩
  · cases e <;> simp [World.handle_input]
  · induction n with
    | zero => simp [World.new]
    | succ k ih =>
      rw [Function.iterate_succ_apply']
      have htog : ∀ z : World E, (z.handle_input InputEvent.KeyM).state =
          (if z.state = WorldState.Render then WorldState.Pose
           else WorldState.Render) := fun z => rfl
      rw [htog, ih]
      rcases Nat.mod_two_eq_zero_or_one k with h | h
      · have h2 : (k + 1) % 2 = 1 := by omega
        simp [h, h2]
      · have h2 : (k + 1) % 2 = 0 := by omega
        simp [h, h2]

/-- Iterating execute_command from a cursor that is n short of the queue
length replays exactly the pending suffix in order and leaves the cursor
at the end of the queue. -/
theorem iterate_execute_spec {Cmd T : Type} (exec : Cmd → T → T) :
    ∀ (n : Nat) (inv : Invoker Cmd T),
      inv.current_index + n = inv.commands.length →
      (Invoker.execute_command exec)^[n] inv =
        { commands := inv.commands,
          target := (inv.commands.drop inv.current_index).foldl
            (fun t c => exec c t) inv.target,
          current_index := inv.commands.length } := by
  intro n
  induction n with
  | zero =>
    intro inv h
    have hdrop : inv.commands.drop inv.current_index = [] :=
      List.drop_eq_nil_of_le (by omega)
    rw [Function.iterate_zero_apply, hdrop]
    obtain ⟨cs, t, i⟩ := inv
    simp only [List.foldl_nil]
    simp only at h
    simp [show i = cs.length by omega]
  | succ k ih =>
    intro inv h
    have hlt : inv.current_index < inv.commands.length := by omega
    rw [Function.iterate_succ_apply]
    have hstep : Invoker.execute_command exec inv =
        { inv with
            target := exec (inv.commands.get ⟨inv.current_index, hlt⟩)
              inv.target,
            current_index := inv.current_index + 1 } := by
      unfold Invoker.execute_command
      rw [if_neg (by omega), List.get?_eq_get hlt]
    rw [hstep, ih _ (by simp; omega)]
    simp only
    rw [List.drop_eq_getElem_cons hlt, List.foldl_cons]
    simp [List.get_eq_getElem]

/-- C6: with the cursor inside the queue, appending a then b and replaying
applies the pending commands, then a, then b, each once and in order;
afterwards the queue is empty and the cursor is zero, and replaying again
changes nothing at all. -/
theorem C6_invoker_fifo {Cmd T : Type} (exec : Cmd → T → T)
    (inv : Invoker Cmd T) (a b : Cmd)
    (h : inv.current_index ≤ inv.commands.length) :
    ((inv.append_command a).append_command b
        |> Invoker.execute_all_commands exec).target =
      exec b (exec a ((inv.commands.drop inv.current_index).foldl
        (fun t c => exec c t) inv.target)) ∧
    ((inv.append_command a).append_command b
        |> Invoker.execute_all_commands exec).commands = [] ∧
    ((inv.append_command a).append_command b
        |> Invoker.execute_all_commands exec).current_index = 0 ∧
    Invoker.execute_all_commands exec
        ((inv.append_command a).append_command b
          |> Invoker.execute_all_commands exec) =
      ((inv.append_command a).append_command b
        |> Invoker.execute_all_commands exec) := by
  have hcmds : ((inv.append_command a).append_command b).commands =
      inv.commands ++ [a] ++ [b] := rfl
  have hidx : ((inv.append_command a).append_command b).current_index =
      inv.current_index := rfl
  have htgt : ((inv.append_command a).append_command b).target =
      inv.target := rfl
  have hrun := iterate_execute_spec exec
      (((inv.append_command a).append_command b).commands.length -
        ((inv.append_command a).append_command b).current_index)
      ((inv.append_command a).append_command b)
      (by rw [hcmds, hidx]; simp; omega)
  have hdrop : (inv.commands ++ [a] ++ [b]).drop inv.current_index =
      inv.commands.drop inv.current_index ++ [a] ++ [b] := by
    rw [List.drop_append_of_le_length (by simp; omega),
        List.drop_append_of_le_length h]
  have hall : Invoker.execute_all_commands exec
      ((inv.append_command a).append_command b) =
      { commands := [],
        target := exec b (exec a ((inv.commands.drop inv.current_index).foldl
          (fun t c => exec c t) inv.target)),
        current_index := 0 } := by
    unfold Invoker.execute_all_commands
    rw [hrun]
    simp only [hcmds, hidx, htgt, hdrop]
    rw [List.foldl_append, List.foldl_append]
    simp
  rw [hall]
  refine ⟨rfl, rfl, rfl, ?_⟩
  unfold Invoker.execute_all_commands
  simp [Function.iterate_zero_apply]

theorem C6_witness :
    ((Invoker.new ([] : List Nat) : Invoker Nat (List Nat)).current_index ≤
      (Invoker.new ([] : List Nat) : Invoker Nat (List Nat)).commands.length) ∧
    ((Invoker.execute_all_commands execW invW).target = execW 2 (execW 1 []) ∧
     (Invoker.execute_all_commands execW invW).commands = [] ∧
     (Invoker.execute_all_commands execW invW).current_index = 0 ∧
     Invoker.execute_all_commands execW
         (Invoker.execute_all_commands execW invW) =
       Invoker.execute_all_commands execW invW) :=
  ⟨Nat.le_refl 0,
   C6_invoker_fifo execW (Invoker.new []) 1 2 (Nat.le_refl 0)⟩

/-- A successful Vec::insert makes the inserted element readable at its
index. -/
theorem vecInsert_get (l : List Mat) (i : Nat) (x : Mat) (l2 : List Mat)
    (h : vecInsert l i x = some l2) : l2.get? i = some x := by
  unfold vecInsert at h
  split at h
  case isTrue hle =>
    injection h with h2
    subst h2
    have hlen : (l.take i).length = i := by
      simp [List.length_take]
      omega
    rw [List.get?_append_right (by omega)]
    rw [hlen]
    simp
  case isFalse => exact absurd h (by simp)

/-- C2 counterexample: in a skeleton whose root has bind = 2 I and whose
child (parent 0, bind = I) has an absent animation track, the evaluator
outputs the child bind verbatim, while parent_world * bind would be 2 I;
the two differ, refuting the claim for absent tracks. -/
theorem C2_counterexample :
    objCexW.animations.get? jChildW.joint_index = none ∧
    objCexW.get_skinning 0 = some [⟨(2 : ℚ) • 1⟩, ⟨1⟩] ∧
    parentWorld [(2 : ℚ) • 1] jChildW = some ((2 : ℚ) • 1) ∧
    ((2 : ℚ) • (1 : Mat)) * jChildW.bind ≠ (1 : Mat) := by
  refine ⟨rfl, rfl, rfl, ?_⟩
  intro h
  rw [show jChildW.bind = (1 : Mat) from rfl, mul_one] at h
  have h00 := congrFun (congrFun h 0) 0
  simp [Matrix.smul_apply, Matrix.one_apply] at h00

/-- C2 amended: a joint with a present but empty track outputs
parent_world * bind; a joint with an absent track outputs its own bind
matrix verbatim, with no parent factor and no inverse_bind factor. -/
theorem C2_amended (anims : List (List (ℚ × Animation))) (time : ℚ)
    (loc : List Mat) (j : Joint) (p : Mat) (loc2 : List Mat) (out : Mat)
    (hp : parentWorld loc j = some p)
    (he : evalJointTime anims time loc j = some (loc2, out)) :
    (anims.get? j.joint_index = some [] → out = p * j.bind) ∧
    (anims.get? j.joint_index = none → out = j.bind) := by
  simp only [evalJointTime, hp] at he
  constructor
  · intro htr
    simp only [htr] at he
    cases hv : vecInsert loc j.joint_index j.bind with
    | none => rw [hv] at he; simp at he
    | some l2 =>
      rw [hv] at he
      simp at he
      exact he.2.symm
  · intro htr
    simp only [htr] at he
    cases hv : vecInsert loc j.joint_index j.bind with
    | none => rw [hv] at he; simp at he
    | some l2 =>
      rw [hv] at he
      simp at he
      exact he.2.symm

theorem C2_witness :
    (parentWorld [] jRootW = some 1 ∧
     evalJointTime animsEmptyW 0 [] jRootW =
       some ([jRootW.bind], 1 * jRootW.bind)) ∧
    ((animsEmptyW.get? jRootW.joint_index = some [] →
       1 * jRootW.bind = 1 * jRootW.bind) ∧
     (animsEmptyW.get? jRootW.joint_index = none →
       1 * jRootW.bind = jRootW.bind)) :=
  ⟨⟨rfl, rfl⟩,
   C2_amended animsEmptyW 0 [] jRootW 1 [jRootW.bind] (1 * jRootW.bind)
     rfl rfl⟩

/-- C10: a joint with an absent or empty track stores exactly its own
bind matrix in the scratch array, with no parent accumulation, in both
the time-based and the discrete-frame evaluation; hence any child linking
to it (other than through the root sentinel) resolves parent_world to
that bind matrix alone. -/
theorem C10_scratch_bind (anims : List (List (ℚ × Animation))) (time : ℚ)
    (idx : Nat) (j : Joint)
    (htr : anims.get? j.joint_index = none ∨
           anims.get? j.joint_index = some []) :
    (∀ loc loc2 out, evalJointTime anims time loc j = some (loc2, out) →
      loc2.get? j.joint_index = some j.bind ∧
      ∀ child : Joint, child.parent = j.joint_index → child.parent ≠ 255 →
        parentWorld loc2 child = some j.bind) ∧
    (∀ loc loc2 out, evalJointAt anims idx loc j = some (loc2, out) →
      loc2.get? j.joint_index = some j.bind ∧
      ∀ child : Joint, child.parent = j.joint_index → child.parent ≠ 255 →
        parentWorld loc2 child = some j.bind) := by
  have hchild : ∀ (loc2 : List Mat),
      loc2.get? j.joint_index = some j.bind →
      ∀ child : Joint, child.parent = j.joint_index → child.parent ≠ 255 →
        parentWorld loc2 child = some j.bind := by
    intro loc2 hget child hpc hns
    unfold parentWorld
    rw [if_neg hns, hpc]
    exact hget
  constructor
  · intro loc loc2 out he
    cases hpw : parentWorld loc j with
    | none => simp [evalJointTime, hpw] at he
    | some p =>
      simp only [evalJointTime, hpw] at he
      have hins : vecInsert loc j.joint_index j.bind = some loc2 := by
        rcases htr with htr | htr
        · simp only [htr] at he
          cases hv : vecInsert loc j.joint_index j.bind with
          | none => rw [hv] at he; simp at he
          | some l2 =>
            rw [hv] at he
            simp at he
            exact congrArg some he.1
        · simp only [htr] at he
          cases hv : vecInsert loc j.joint_index j.bind with
          | none => rw [hv] at he; simp at he
          | some l2 =>
            rw [hv] at he
            simp at he
            exact congrArg some he.1
      have hget := vecInsert_get _ _ _ _ hins
      exact ⟨hget, hchild loc2 hget⟩
  · intro loc loc2 out he
    cases hpw : parentWorld loc j with
    | none => simp [evalJointAt, hpw] at he
    | some p =>
      simp only [evalJointAt, hpw] at he
      have hins : vecInsert loc j.joint_index j.bind = some loc2 := by
        rcases htr with htr | htr
        · simp only [htr] at he
          cases hv : vecInsert loc j.joint_index j.bind with
          | none => rw [hv] at he; simp at he
          | some l2 =>
            rw [hv] at he
            simp at he
            exact congrArg some he.1
        · simp only [htr] at he
          cases hv : vecInsert loc j.joint_index j.bind with
          | none => rw [hv] at he; simp at he
          | some l2 =>
            rw [hv] at he
            simp at he
            exact congrArg some he.1
      have hget := vecInsert_get _ _ _ _ hins
      exact ⟨hget, hchild loc2 hget⟩

/-- The Rust remainder by 4 is below 4 for every rational input. -/
theorem rustRem_lt_four (a : ℚ) : rustRem a 4 < 4 := by
  unfold rustRem
  have ha : a = 4 * (a / 4) := by ring
  split
  · have h := Int.lt_floor_add_one (a / 4)
    linarith
  · have h := Int.le_ceil (a / 4)
    linarith

/-- The Rust remainder by 4 is above -4 for every rational input. -/
theorem neg_four_lt_rustRem (a : ℚ) : -4 < rustRem a 4 := by
  unfold rustRem
  have ha : a = 4 * (a / 4) := by ring
  split
  · have h := Int.floor_le (a / 4)
    linarith
  · have h := Int.ceil_lt_add_one (a / 4)
    linarith

/-- The sampling position t stays strictly between -L and L. -/
theorem t_bounds (time : ℚ) (L : Nat) (hL : 0 < L) :
    rustRem time 4 * ((L : ℚ) / 4) < L ∧
    -(L : ℚ) < rustRem time 4 * ((L : ℚ) / 4) := by
  have hLq : (0 : ℚ) < (L : ℚ) := by exact_mod_cast hL
  have hL4 : (0 : ℚ) < (L : ℚ) / 4 := by positivity
  constructor
  · have h := mul_lt_mul_of_pos_right (rustRem_lt_four time) hL4
    calc rustRem time 4 * ((L : ℚ) / 4) < 4 * ((L : ℚ) / 4) := h
    _ = (L : ℚ) := by ring
  · have h := mul_lt_mul_of_pos_right (neg_four_lt_rustRem time) hL4
    calc -(L : ℚ) = -4 * ((L : ℚ) / 4) := by ring
    _ < rustRem time 4 * ((L : ℚ) / 4) := h

/-- The first sample index is always inside the track. -/
theorem sampleIndex1_lt (time : ℚ) (L : Nat) (hL : 0 < L) :
    (⌊rustRem time 4 * ((L : ℚ) / 4)⌋).toNat < L := by
  have h := (t_bounds time L hL).1
  have hfl : ⌊rustRem time 4 * ((L : ℚ) / 4)⌋ < (L : ℤ) := by
    have hle := Int.floor_le (rustRem time 4 * ((L : ℚ) / 4))
    have : ((⌊rustRem time 4 * ((L : ℚ) / 4)⌋ : ℤ) : ℚ) < (L : ℚ) :=
      lt_of_le_of_lt hle h
    exact_mod_cast this
  omega

/-- The wrapped second sample index is always inside the track. -/
theorem sampleIndex2_lt (time : ℚ) (L : Nat) (hL : 0 < L) :
    (if (⌈rustRem time 4 * ((L : ℚ) / 4)⌉).toNat = L then 0
     else (⌈rustRem time 4 * ((L : ℚ) / 4)⌉).toNat) < L := by
  have h := (t_bounds time L hL).1
  have hcl : ⌈rustRem time 4 * ((L : ℚ) / 4)⌉ ≤ (L : ℤ) := by
    rw [Int.ceil_le]
    push_cast
    exact le_of_lt h
  split
  · exact hL
  · next hne => omega

/-- Adding one full 4-unit cycle does not change the Rust remainder for
non-negative time. -/
theorem rustRem_add_four (t : ℚ) (ht : 0 ≤ t) :
    rustRem (t + 4) 4 = rustRem t 4 := by
  unfold rustRem
  have h1 : (0 : ℚ) ≤ t / 4 := by positivity
  have h2 : (0 : ℚ) ≤ (t + 4) / 4 := by positivity
  rw [if_pos h2, if_pos h1]
  have h3 : (t + 4) / 4 = t / 4 + 1 := by ring
  rw [h3, Int.floor_add_one]
  push_cast
  ring

/-- The per-joint step only sees time through its remainder mod 4, so a
shift by one cycle leaves it unchanged on non-negative time. -/
theorem evalJointTime_period (anims : List (List (ℚ × Animation)))
    (time : ℚ) (ht : 0 ≤ time) :
    evalJointTime anims (time + 4) = evalJointTime anims time := by
  funext loc j
  simp only [evalJointTime, rustRem_add_four time ht]

/-- C5: for every skeleton, every track set and every non-negative time,
time-based evaluation at time + 4 returns the same output sequence as at
time. -/
theorem C5_periodic {E : Type} (o : GameObject E) (time : ℚ)
    (ht : 0 ≤ time) :
    o.get_skinning (time + 4) = o.get_skinning time := by
  unfold GameObject.get_skinning
  rw [evalJointTime_period o.animations time ht]

theorem C5_witness :
    (0 : ℚ) ≤ 0 ∧ objTwoW.get_skinning (0 + 4) = objTwoW.get_skinning 0 :=
  ⟨le_refl 0, C5_periodic objTwoW 0 (le_refl 0)⟩

/-- Closed form of the per-joint step for an animated joint: with the
parent resolved, a non-empty track and an in-range insert position, the
step inserts parent * pose into the scratch and outputs
parent * (pose * inverse) with pose the blended sample. -/
theorem evalJointTime_animated_eq (anims : List (List (ℚ × Animation)))
    (time : ℚ) (loc : List Mat) (j : Joint) (v : List (ℚ × Animation))
    (p : Mat)
    (hv : anims.get? j.joint_index = some v)
    (hne : 0 < v.length)
    (hp : parentWorld loc j = some p)
    (hle : j.joint_index ≤ loc.length) :
    evalJointTime anims time loc j =
      some (loc.take j.joint_index ++
              (p * specPoseFormula v time) :: loc.drop j.joint_index,
            p * (specPoseFormula v time * j.inverse)) := by
  have h1 := sampleIndex1_lt time v.length hne
  have h2 := sampleIndex2_lt time v.length hne
  simp only [evalJointTime, hp, hv]
  rw [if_pos hne]
  rw [List.get?_eq_get h1, List.get?_eq_get h2]
  simp only [vecInsert]
  rw [if_pos hle]
  simp only [specPoseFormula, List.getD_eq_get _ _ h1, List.getD_eq_get _ _ h2]

/-- Closed form of the per-joint step for an animated joint whose insert
position lies beyond the scratch length: the Vec::insert panic. -/
theorem evalJointTime_animated_panic (anims : List (List (ℚ × Animation)))
    (time : ℚ) (loc : List Mat) (j : Joint) (v : List (ℚ × Animation))
    (p : Mat)
    (hv : anims.get? j.joint_index = some v)
    (hne : 0 < v.length)
    (hp : parentWorld loc j = some p)
    (hgt : ¬ j.joint_index ≤ loc.length) :
    evalJointTime anims time loc j = none := by
  have h1 := sampleIndex1_lt time v.length hne
  have h2 := sampleIndex2_lt time v.length hne
  simp only [evalJointTime, hp, hv]
  rw [if_pos hne]
  rw [List.get?_eq_get h1, List.get?_eq_get h2]
  simp only [vecInsert]
  rw [if_neg hgt]

/-- C1: for a joint with a present non-empty track and non-negative
elapsed time, a successful evaluation step exports exactly
parent_world * pose * inverse_bind, with pose the component-wise blend of
the two samples selected by t = (time mod 4) * (L / 4). -/
theorem C1_animated_formula (anims : List (List (ℚ × Animation)))
    (time : ℚ) (loc : List Mat) (j : Joint) (v : List (ℚ × Animation))
    (p : Mat) (loc2 : List Mat) (out : Mat)
    (htime : 0 ≤ time)
    (hv : anims.get? j.joint_index = some v)
    (hne : 0 < v.length)
    (hp : parentWorld loc j = some p)
    (he : evalJointTime anims time loc j = some (loc2, out)) :
    out = p * specPoseFormula v time * j.inverse := by
  by_cases hle : j.joint_index ≤ loc.length
  · rw [evalJointTime_animated_eq anims time loc j v p hv hne hp hle] at he
    injection he with h2
    have h3 : p * (specPoseFormula v time * j.inverse) = out :=
      congrArg Prod.snd h2
    rw [← h3, mul_assoc]
  · rw [evalJointTime_animated_panic anims time loc j v p hv hne hp hle]
      at he
    exact absurd he (by simp)

/-- Length of the list produced by an in-range Vec::insert. -/
theorem insertList_length (loc : List Mat) (i : Nat) (x : Mat)
    (h : i ≤ loc.length) :
    (loc.take i ++ x :: loc.drop i).length = loc.length + 1 := by
  simp [List.length_take, List.length_drop]
  omega

/-- Closed form of the per-joint step when the track is present but
empty. -/
theorem evalJointTime_emptyTrack_eq (anims : List (List (ℚ × Animation)))
    (time : ℚ) (loc : List Mat) (j : Joint) (p : Mat)
    (hv : anims.get? j.joint_index = some [])
    (hp : parentWorld loc j = some p)
    (hle : j.joint_index ≤ loc.length) :
    evalJointTime anims time loc j =
      some (loc.take j.joint_index ++ j.bind :: loc.drop j.joint_index,
            p * j.bind) := by
  simp only [evalJointTime, hp, hv, List.length_nil, lt_self_iff_false,
    if_false, vecInsert]
  rw [if_pos hle]

/-- Closed form of the per-joint step when the track is absent. -/
theorem evalJointTime_noTrack_eq (anims : List (List (ℚ × Animation)))
    (time : ℚ) (loc : List Mat) (j : Joint) (p : Mat)
    (hv : anims.get? j.joint_index = none)
    (hp : parentWorld loc j = some p)
    (hle : j.joint_index ≤ loc.length) :
    evalJointTime anims time loc j =
      some (loc.take j.joint_index ++ j.bind :: loc.drop j.joint_index,
            j.bind) := by
  simp only [evalJointTime, hp, hv, vecInsert]
  rw [if_pos hle]

/-- Closed form of the discrete-frame per-joint step for an animated
joint. -/
theorem evalJointAt_animated_eq (anims : List (List (ℚ × Animation)))
    (idx : Nat) (loc : List Mat) (j : Joint) (v : List (ℚ × Animation))
    (p : Mat)
    (hv : anims.get? j.joint_index = some v)
    (hne : 0 < v.length)
    (hp : parentWorld loc j = some p)
    (hle : j.joint_index ≤ loc.length) :
    evalJointAt anims idx loc j =
      some (loc.take j.joint_index ++
              (p * (v.get ⟨idx % v.length, Nat.mod_lt idx hne⟩).2.pose) ::
              loc.drop j.joint_index,
            p * ((v.get ⟨idx % v.length, Nat.mod_lt idx hne⟩).2.pose *
              j.inverse)) := by
  simp only [evalJointAt, hp, hv]
  rw [if_pos hne]
  rw [List.get?_eq_get (Nat.mod_lt idx hne)]
  simp only [vecInsert]
  rw [if_pos hle]

/-- Closed form of the discrete-frame per-joint step when the track is
present but empty. -/
theorem evalJointAt_emptyTrack_eq (anims : List (List (ℚ × Animation)))
    (idx : Nat) (loc : List Mat) (j : Joint) (p : Mat)
    (hv : anims.get? j.joint_index = some [])
    (hp : parentWorld loc j = some p)
    (hle : j.joint_index ≤ loc.length) :
    evalJointAt anims idx loc j =
      some (loc.take j.joint_index ++ j.bind :: loc.drop j.joint_index,
            p * j.bind) := by
  simp only [evalJointAt, hp, hv, List.length_nil, lt_self_iff_false,
    if_false, vecInsert]
  rw [if_pos hle]

/-- Closed form of the discrete-frame per-joint step when the track is
absent. -/
theorem evalJointAt_noTrack_eq (anims : List (List (ℚ × Animation)))
    (idx : Nat) (loc : List Mat) (j : Joint) (p : Mat)
    (hv : anims.get? j.joint_index = none)
    (hp : parentWorld loc j = some p)
    (hle : j.joint_index ≤ loc.length) :
    evalJointAt anims idx loc j =
      some (loc.take j.joint_index ++ j.bind :: loc.drop j.joint_index,
            j.bind) := by
  simp only [evalJointAt, hp, hv, vecInsert]
  rw [if_pos hle]

/-- With the joint at the front of the scratch frontier and an in-range
parent link, the parent lookup always succeeds. -/
theorem parentWorld_total (loc : List Mat) (j : Joint)
    (hpar : j.parent = 255 ∨ j.parent < loc.length) :
    ∃ pw, parentWorld loc j = some pw := by
  unfold parentWorld
  rcases hpar with h | h
  · exact ⟨1, by rw [if_pos h]⟩
  · by_cases h255 : j.parent = 255
    · exact ⟨1, by rw [if_pos h255]⟩
    · rw [if_neg h255]
      exact ⟨_, List.get?_eq_get h⟩

/-- The time-based per-joint step succeeds on a joint whose index is the
scratch length and whose parent is the sentinel or already stored, and it
grows the scratch by one. -/
theorem evalStepTime_total (anims : List (List (ℚ × Animation)))
    (time : ℚ) (loc : List Mat) (j : Joint)
    (hj : j.joint_index = loc.length)
    (hpar : j.parent = 255 ∨ j.parent < loc.length) :
    ∃ loc2 out, evalJointTime anims time loc j = some (loc2, out) ∧
      loc2.length = loc.length + 1 := by
  have hle : j.joint_index ≤ loc.length := le_of_eq hj
  obtain ⟨pw, hpw⟩ := parentWorld_total loc j hpar
  cases hanim : anims.get? j.joint_index with
  | none =>
    exact ⟨_, _, evalJointTime_noTrack_eq anims time loc j pw hanim hpw hle,
      insertList_length loc j.joint_index j.bind hle⟩
  | some v =>
    by_cases hne : 0 < v.length
    · exact ⟨_, _,
        evalJointTime_animated_eq anims time loc j v pw hanim hne hpw hle,
        insertList_length loc j.joint_index _ hle⟩
    · have hv0 : v = [] := List.length_eq_zero.mp (by omega)
      subst hv0
      exact ⟨_, _,
        evalJointTime_emptyTrack_eq anims time loc j pw hanim hpw hle,
        insertList_length loc j.joint_index j.bind hle⟩

/-- The discrete-frame per-joint step succeeds under the same conditions
and also grows the scratch by one. -/
theorem evalStepAt_total (anims : List (List (ℚ × Animation)))
    (idx : Nat) (loc : List Mat) (j : Joint)
    (hj : j.joint_index = loc.length)
    (hpar : j.parent = 255 ∨ j.parent < loc.length) :
    ∃ loc2 out, evalJointAt anims idx loc j = some (loc2, out) ∧
      loc2.length = loc.length + 1 := by
  have hle : j.joint_index ≤ loc.length := le_of_eq hj
  obtain ⟨pw, hpw⟩ := parentWorld_total loc j hpar
  cases hanim : anims.get? j.joint_index with
  | none =>
    exact ⟨_, _, evalJointAt_noTrack_eq anims idx loc j pw hanim hpw hle,
      insertList_length loc j.joint_index j.bind hle⟩
  | some v =>
    by_cases hne : 0 < v.length
    · exact ⟨_, _,
        evalJointAt_animated_eq anims idx loc j v pw hanim hne hpw hle,
        insertList_length loc j.joint_index _ hle⟩
    · have hv0 : v = [] := List.length_eq_zero.mp (by omega)
      subst hv0
      exact ⟨_, _,
        evalJointAt_emptyTrack_eq anims idx loc j pw hanim hpw hle,
        insertList_length loc j.joint_index j.bind hle⟩

/-- On a well-formed skeleton the scratch-threading traversal succeeds as
long as the scratch already holds one entry per previously processed
joint. -/
theorem goSkin_total (step : List Mat → Joint → Option (List Mat × Mat))
    (hstep : ∀ loc j, j.joint_index = loc.length →
      (j.parent = 255 ∨ j.parent < loc.length) →
      ∃ loc2 out, step loc j = some (loc2, out) ∧
        loc2.length = loc.length + 1) :
    ∀ (suffix pre : List Joint) (loc : List Mat),
      loc.length = pre.length →
      WellFormed (pre ++ suffix) →
      ∃ outs, goSkin step suffix loc = some outs := by
  intro suffix
  induction suffix with
  | nil =>
    intro pre loc hlen hwf
    exact ⟨[], rfl⟩
  | cons j rest ih =>
    intro pre loc hlen hwf
    have hidx : pre.length < (pre ++ j :: rest).length := by simp
    have hj := hwf ⟨pre.length, hidx⟩
    have hget : (pre ++ j :: rest).get ⟨pre.length, hidx⟩ = j := by
      rw [List.get_eq_getElem, List.getElem_append_right (Nat.le_refl _)]
      simp
    rw [hget] at hj
    obtain ⟨hji, hpar⟩ := hj
    obtain ⟨loc2, out, hstep_eq, hlen2⟩ :=
      hstep loc j (by rw [hji, hlen]) (by rw [hlen]; exact hpar)
    have hwf2 : WellFormed ((pre ++ [j]) ++ rest) := by
      have hassoc : (pre ++ [j]) ++ rest = pre ++ j :: rest := by simp
      rw [hassoc]
      exact hwf
    obtain ⟨outs, houts⟩ :=
      ih (pre ++ [j]) loc2 (by simp [hlen2, hlen]) hwf2
    refine ⟨out :: outs, ?_⟩
    simp [goSkin, hstep_eq, houts]

/-- C3: on a skeleton where each joint records its own position and each
parent link is the sentinel or strictly smaller, both evaluators always
return a result: no parent lookup, sample access or scratch insert can
fail, for every time and every frame index. -/
theorem C3_wellformed_total {E : Type} (o : GameObject E) (time : ℚ)
    (idx : Nat) (hwf : WellFormed o.joints) :
    (∃ r, o.get_skinning time = some r) ∧
    (∃ s, o.get_skinning_at idx = some s) := by
  constructor
  · unfold GameObject.get_skinning
    by_cases hlen : 0 < o.joints.length
    · rw [if_pos hlen]
      obtain ⟨outs, houts⟩ :=
        goSkin_total (evalJointTime o.animations time)
          (fun loc j hj hpar => evalStepTime_total o.animations time loc j
            hj hpar)
          o.joints [] [] rfl hwf
      rw [houts]
      exact ⟨_, rfl⟩
    · rw [if_neg hlen]
      exact ⟨_, rfl⟩
  · unfold GameObject.get_skinning_at
    by_cases hlen : 0 < o.joints.length
    · rw [if_pos hlen]
      obtain ⟨outs, houts⟩ :=
        goSkin_total (evalJointAt o.animations idx)
          (fun loc j hj hpar => evalStepAt_total o.animations idx loc j
            hj hpar)
          o.joints [] [] rfl hwf
      rw [houts]
      exact ⟨_, rfl⟩
    · rw [if_neg hlen]
      exact ⟨_, rfl⟩

theorem C3_witness :
    WellFormed objTwoW.joints ∧
    ((∃ r, objTwoW.get_skinning 1 = some r) ∧
     (∃ s, objTwoW.get_skinning_at 2 = some s)) :=
  ⟨by decide, C3_wellformed_total objTwoW 1 2 (by decide)⟩

theorem C1_witness :
    ((0 : ℚ) ≤ 0 ∧
     animsW.get? jRootW.joint_index = some trackW ∧
     0 < trackW.length ∧
     parentWorld [] jRootW = some 1 ∧
     evalJointTime animsW 0 [] jRootW = some ([1], 1)) ∧
    (1 : Mat) = 1 * specPoseFormula trackW 0 * jRootW.inverse :=
  ⟨⟨le_refl 0, rfl, by simp [trackW], rfl,
    by simp [evalJointTime, parentWorld, vecInsert, rustRem, trackW,
             animsW, jRootW]⟩,
   C1_animated_formula animsW 0 [] jRootW trackW 1 [1] 1 (le_refl 0) rfl
     (by simp [trackW]) rfl
     (by simp [evalJointTime, parentWorld, vecInsert, rustRem, trackW,
               animsW, jRootW])⟩

theorem C10_witness :
    (([] : List (List (ℚ × Animation))).get? jRootW.joint_index = none ∨
     ([] : List (List (ℚ × Animation))).get? jRootW.joint_index = some []) ∧
    ((∀ loc loc2 out, evalJointTime [] 0 loc jRootW = some (loc2, out) →
       loc2.get? jRootW.joint_index = some jRootW.bind ∧
       ∀ child : Joint, child.parent = jRootW.joint_index →
         child.parent ≠ 255 → parentWorld loc2 child = some jRootW.bind) ∧
     (∀ loc loc2 out, evalJointAt [] 0 loc jRootW = some (loc2, out) →
       loc2.get? jRootW.joint_index = some jRootW.bind ∧
       ∀ child : Joint, child.parent = jRootW.joint_index →
         child.parent ≠ 255 → parentWorld loc2 child = some jRootW.bind)) :=
  ⟨Or.inl rfl, C10_scratch_bind [] 0 0 jRootW (Or.inl rfl)⟩

end Parti
